import Mathlib

/-!
Verification of the s-expression parser in `prism/language/sexp/_parse.cpp`.

The parser (`sexp_parse` in the source) consumes a sequence of unicode code
points one at a time, maintaining a stack of in-progress list accumulators
(`return_stack`), a pending quoted-literal buffer (`quoted`), a pending
bare-atom buffer (`terminal`) and an `escaped` flag.  We embed the loop body
as a pure step function over an explicit state record, with text modelled as
`List Char` (one entry per code point) and failures as an error type carrying
the same payloads the C++ error messages carry.
-/

namespace SexpParse

/-- Code points of a string literal. -/
def chars (s : String) : List Char := s.data

/-- Whitespace classification used by the parser (`Py_UNICODE_ISSPACE`):
ASCII 0x09-0x0D, 0x1C-0x20, plus the Unicode space code points the CPython
table recognizes. -/
def isSpace (c : Char) : Bool :=
  let n := c.toNat
  (9 ≤ n && n ≤ 13) || (28 ≤ n && n ≤ 32) || n == 0x85 || n == 0xA0 ||
  n == 0x1680 || (0x2000 ≤ n && n ≤ 0x200A) || n == 0x2028 || n == 0x2029 ||
  n == 0x202F || n == 0x205F || n == 0x3000

/-- Recognized escape targets and the code point each resolves to; `none`
for the `default` switch case (unrecognized escape). -/
def escResolve (c : Char) : Option Char :=
  if c = '\\' then some '\\'
  else if c = Char.ofNat 39 then some (Char.ofNat 39)
  else if c = '"' then some '"'
  else if c = 'b' then some (Char.ofNat 8)
  else if c = 'f' then some (Char.ofNat 12)
  else if c = 't' then some (Char.ofNat 9)
  else if c = 'n' then some (Char.ofNat 10)
  else if c = 'r' then some (Char.ofNat 13)
  else if c = 'v' then some (Char.ofNat 11)
  else if c = 'a' then some (Char.ofNat 7)
  else none

/-- S-expression nodes: an atom holds opaque code-point text, a list holds an
ordered sequence of children (`SexpString` / `SexpList` in the host model). -/
inductive Sexp where
  | atom (text : List Char)
  | list (children : List Sexp)
deriving Repr

/-- Failure outcomes of `sexp_parse`, with the payloads the C++ messages
embed: `assertionFail` is the `PyExc_AssertionError` branch, `extraClose`
carries the 0-based index of the offending close paren and the full input,
`malformed` carries the input shown (possibly truncated) in the message. -/
inductive ParseError where
  | assertionFail
  | extraClose (i : Nat) (input : List Char)
  | malformed (input : List Char)
deriving Repr, DecidableEq

/-- Loop state: `stack` is `return_stack` with its head the innermost open
accumulator (`back()` in the vector), `quoted` and `terminal` the two text
buffers, `escaped` the escape flag. -/
structure PState where
  stack : List (List Sexp)
  quoted : List Char
  escaped : Bool
  terminal : List Char
deriving Repr

/-- Append a finished node to the innermost open accumulator
(`PyList_Append(return_stack.back(), ...)`). -/
def emitTop (stack : List (List Sexp)) (n : Sexp) : List (List Sexp) :=
  match stack with
  | top :: rest => (top ++ [n]) :: rest
  | [] => []

/-- The escape switch inside the non-empty-terminal block (source lines
307-343): a recognized escape replaces the current code point, the default
case pushes a backslash onto the terminal buffer. -/
def terminalEscape (c : Char) (terminal : List Char) : Char × List Char :=
  match escResolve c with
  | some c2 => (c2, terminal)
  | none => (c, terminal ++ ['\\'])

/-- The escape switch at source lines 364-414: a recognized escape replaces
the code point, except that an escaped double quote inside an open quoted
literal additionally pushes a backslash onto the quoted buffer; the default
case pushes a backslash onto whichever buffer is open. -/
def escapePhase (c : Char) (st : PState) : Char × PState :=
  match escResolve c with
  | some c2 =>
    if c = '"' ∧ st.quoted ≠ [] then
      (c2, { st with quoted := st.quoted ++ ['\\'] })
    else (c2, st)
  | none =>
    if st.quoted ≠ [] then (c, { st with quoted := st.quoted ++ ['\\'] })
    else (c, { st with terminal := st.terminal ++ ['\\'] })

/-- Source lines 422-501: extend or conclude a quoted literal, else handle
a structural character (whitespace, parens, opening quote) or extend/seed
the terminal buffer. -/
def dispatch (input : List Char) (i : Nat) (c : Char) (st : PState) :
    Except ParseError PState :=
  if st.quoted ≠ [] then
    if st.escaped = false ∧ c = '"' then
      .ok { st with stack := emitTop st.stack (.atom (st.quoted ++ ['"'])),
                    quoted := [] }
    else
      .ok { st with escaped := false, quoted := st.quoted ++ [c] }
  else if st.escaped = false then
    if isSpace c then .ok st
    else if c = '(' then .ok { st with stack := [] :: st.stack }
    else if c = ')' then
      match st.stack with
      | _ :: [] => .error (.extraClose i input)
      | children :: r :: rs => .ok { st with stack := emitTop (r :: rs) (.list children) }
      | [] => .error (.extraClose i input)
    else if c = '"' then .ok { st with quoted := ['"'] }
    else .ok { st with escaped := false, terminal := st.terminal ++ [c] }
  else
    .ok { st with escaped := false, terminal := st.terminal ++ [c] }

/-- Source lines 364-421: resolve a pending escape, or consume a fresh
backslash by setting the flag, then fall through to `dispatch`. -/
def afterTerminal (input : List Char) (i : Nat) (c : Char) (st : PState) :
    Except ParseError PState :=
  if st.escaped then
    dispatch input i (escapePhase c st).1 (escapePhase c st).2
  else if c = '\\' then
    .ok { st with escaped := true }
  else
    dispatch input i c st

/-- One iteration of the parse loop (source lines 285-502).  When the
terminal buffer is non-empty: fail if the quoted buffer is also non-empty,
otherwise run the first escape switch, then either conclude the terminal on
an unescaped delimiter and fall through (the delimiter check passes only
with the flag clear, in which case the switch left the code point alone),
or append the (possibly escape-resolved) code point and move on. -/
def step (input : List Char) (i : Nat) (c : Char) (st : PState) :
    Except ParseError PState :=
  if st.terminal = [] then
    afterTerminal input i c st
  else if st.quoted ≠ [] then
    .error .assertionFail
  else if st.escaped = false ∧ (c = '(' ∨ c = ')' ∨ c = '"' ∨ isSpace c = true) then
    afterTerminal input i c
      { st with stack := emitTop st.stack (.atom st.terminal), terminal := [] }
  else if st.escaped then
    .ok { st with escaped := false,
                  terminal := (terminalEscape c st.terminal).2 ++
                    [(terminalEscape c st.terminal).1] }
  else
    .ok { st with escaped := false, terminal := st.terminal ++ [c] }

/-- Run the loop over the remaining code points, `i` being the index of the
next one. -/
def runFrom (input : List Char) : Nat → List Char → PState → Except ParseError PState
  | _, [], st => .ok st
  | i, c :: rest, st =>
    match step input i c st with
    | .error e => .error e
    | .ok st2 => runFrom input (i + 1) rest st2

/-- Initial state: one (top-level) accumulator, empty buffers, flag clear. -/
def initState : PState := ⟨[[]], [], false, []⟩

/-- Continue a run after a prefix: propagate an error, else keep looping. -/
def contRun (input : List Char) (i : Nat) (ys : List Char) :
    Except ParseError PState → Except ParseError PState
  | .error e => .error e
  | .ok st => runFrom input i ys st

/-- End-of-input handling (source lines 503-539): flush a pending terminal,
then demand exactly one accumulator with at least one element. -/
def finish (input : List Char) (st : PState) : Except ParseError (List Sexp) :=
  match (if st.terminal = [] then st.stack else emitTop st.stack (.atom st.terminal)) with
  | [top] => if top.isEmpty then .error (.malformed input) else .ok top
  | _ => .error (.malformed input)

/-- The whole parser: run the loop from index 0 over the input, then finish.
On success the result is the top-level accumulator's ordered contents. -/
def sexp_parse (input : List Char) : Except ParseError (List Sexp) :=
  match runFrom input 0 input initState with
  | .error e => .error e
  | .ok st => finish input st

/-- The message text each error surfaces with, as in the C++ source:
the assertion message, the close-paren message with decimal index and full
input, and the malformed message whose shown input is truncated to its first
72 code points exactly when the input is longer than 100 code points. -/
def errorMessage : ParseError → List Char
  | .assertionFail => chars "quoted is not empty"
  | .extraClose i input =>
    chars "Extra close parenthesis at index " ++ (Nat.repr i).data ++
      chars " of " ++ input
  | .malformed input =>
    chars "Malformed sexp: " ++ (if 100 < input.length then input.take 72 else input)

/-- A code point a bare atom may contain on a backslash-free run: not a
paren, not a double quote, not a backslash, not whitespace. -/
def bareChar (c : Char) : Bool :=
  !(c = '(' || c = ')' || c = '"' || c = '\\' || isSpace c)

/-- A code point the interior of a quoted literal may contain on a
backslash-free run: anything except a double quote or a backslash. -/
def innerChar (c : Char) : Bool := !(c = '"' || c = '\\')

/-- Shape of every node a backslash-free successful parse can produce:
atoms are either non-empty bare text or a quote-delimited literal with a
quote- and backslash-free interior; list children are recursively so. -/
inductive WF : Sexp → Prop where
  | bare {t : List Char} (hne : t ≠ []) (hall : ∀ c ∈ t, bareChar c = true) :
      WF (Sexp.atom t)
  | quot {inner : List Char} (hall : ∀ c ∈ inner, innerChar c = true) :
      WF (Sexp.atom ('"' :: (inner ++ ['"'])))
  | list {children : List Sexp} (h : ∀ n ∈ children, WF n) : WF (Sexp.list children)

/-- The texts of the atom nodes occurring anywhere inside a node. -/
inductive AtomTextIn : List Char → Sexp → Prop where
  | here (t : List Char) : AtomTextIn t (Sexp.atom t)
  | there {t : List Char} {n : Sexp} {children : List Sexp} :
      n ∈ children → AtomTextIn t n → AtomTextIn t (Sexp.list children)

/-- Loop-state invariant maintained along a backslash-free run. -/
structure InvNB (st : PState) : Prop where
  esc : st.escaped = false
  term : ∀ c ∈ st.terminal, bareChar c = true
  quot : st.quoted = [] ∨
    ∃ inner, st.quoted = '"' :: inner ∧ ∀ c ∈ inner, innerChar c = true
  mutex : st.quoted = [] ∨ st.terminal = []
  stackWF : ∀ acc ∈ st.stack, ∀ n ∈ acc, WF n
  ne : st.stack ≠ []

mutual

/-- Serialization described by the spec: an atom is its text, a list wraps
its children in parentheses. -/
def serialize : Sexp → List Char
  | .atom t => t
  | .list children => '(' :: (serializeForest children ++ [')'])

/-- Serialization of a sequence of nodes, joined with single spaces. -/
def serializeForest : List Sexp → List Char
  | [] => []
  | [n] => serialize n
  | n :: ns => serialize n ++ (' ' :: serializeForest ns)

end

/-- Nodes a serialized node has already emitted once its text is consumed:
a bare atom stays pending in the terminal buffer, anything else is emitted. -/
def nodeEmitted : Sexp → List Sexp
  | .atom t => if t.all bareChar then [] else [.atom t]
  | .list children => [.list children]

/-- The terminal buffer contents left pending after a serialized node. -/
def nodePending : Sexp → List Char
  | .atom t => if t.all bareChar then t else []
  | .list _ => []

/-- Emitted nodes after a serialized forest (all but a trailing pending
bare atom). -/
def forestEmitted : List Sexp → List Sexp
  | [] => []
  | [n] => nodeEmitted n
  | n :: ns => n :: forestEmitted ns

/-- Pending terminal buffer after a serialized forest. -/
def forestPending : List Sexp → List Char
  | [] => []
  | [n] => nodePending n
  | _ :: ns => forestPending ns

/-- Flushing a pending terminal buffer yields one atom, or nothing when the
buffer is empty. -/
def flushPend (p : List Char) : List Sexp :=
  match p with
  | [] => []
  | _ => [.atom p]

/-! ### Error characterization -/

theorem dispatch_error_eq {input : List Char} {i : Nat} {c : Char} {st : PState}
    {e : ParseError} (h : dispatch input i c st = Except.error e) :
    e = ParseError.extraClose i input := by
  unfold dispatch at h
  repeat' split at h
  all_goals simp_all

theorem afterTerminal_error_eq {input : List Char} {i : Nat} {c : Char} {st : PState}
    {e : ParseError} (h : afterTerminal input i c st = Except.error e) :
    e = ParseError.extraClose i input := by
  unfold afterTerminal at h
  split at h
  · exact dispatch_error_eq h
  · split at h
    · simp at h
    · exact dispatch_error_eq h

theorem step_error_cases {input : List Char} {i : Nat} {c : Char} {st : PState}
    {e : ParseError} (h : step input i c st = Except.error e) :
    e = ParseError.assertionFail ∨ e = ParseError.extraClose i input := by
  unfold step at h
  split at h
  · exact Or.inr (afterTerminal_error_eq h)
  · split at h
    · simp only [Except.error.injEq] at h
      exact Or.inl h.symm
    · split at h
      · exact Or.inr (afterTerminal_error_eq h)
      · split at h <;> simp_all

theorem step_assert_needs_both {input : List Char} {i : Nat} {c : Char} {st : PState}
    (h : step input i c st = Except.error ParseError.assertionFail) :
    st.terminal ≠ [] ∧ st.quoted ≠ [] := by
  unfold step at h
  split at h
  · exact absurd (afterTerminal_error_eq h) (by simp)
  · rename_i hterm
    split at h
    · rename_i hquot
      exact ⟨hterm, hquot⟩
    · split at h
      · exact absurd (afterTerminal_error_eq h) (by simp)
      · split at h <;> simp_all

theorem runFrom_error_cases {input : List Char} :
    ∀ {l : List Char} {i : Nat} {st : PState} {e : ParseError},
      runFrom input i l st = Except.error e →
      e = ParseError.assertionFail ∨ ∃ j, e = ParseError.extraClose j input := by
  intro l
  induction l with
  | nil => intro i st e h; simp [runFrom] at h
  | cons c rest ih =>
    intro i st e h
    unfold runFrom at h
    split at h
    · rename_i e2 hstep
      simp only [Except.error.injEq] at h
      subst h
      rcases step_error_cases hstep with h1 | h1
      · exact Or.inl h1
      · exact Or.inr ⟨i, h1⟩
    · exact ih h

theorem finish_error_eq {input : List Char} {st : PState} {e : ParseError}
    (h : finish input st = Except.error e) : e = ParseError.malformed input := by
  unfold finish at h
  split at h
  · split at h <;> simp_all
  · simp_all

/-! ### Mutual exclusion of the two buffers -/

/-- The two text buffers are mutually exclusive: at most one is non-empty. -/
def BufMutex (st : PState) : Prop := st.quoted = [] ∨ st.terminal = []

theorem escapePhase_mutex {c : Char} {st : PState} (hm : BufMutex st) :
    BufMutex (escapePhase c st).2 := by
  unfold escapePhase
  rcases hm with hq | ht
  · repeat' split
    all_goals simp_all [BufMutex]
  · repeat' split
    all_goals simp_all [BufMutex]

theorem escapePhase_escaped (c : Char) (st : PState) :
    (escapePhase c st).2.escaped = st.escaped := by
  unfold escapePhase
  repeat' split
  all_goals rfl

theorem dispatch_ok_mutex {input : List Char} {i : Nat} {c : Char} {st st2 : PState}
    (hterm : st.escaped = false → st.terminal = []) (hm : BufMutex st)
    (h : dispatch input i c st = Except.ok st2) : BufMutex st2 := by
  unfold dispatch at h
  repeat' split at h
  all_goals first
  | (simp only [Except.ok.injEq] at h; subst h; simp_all [BufMutex])
  | simp_all

theorem afterTerminal_ok_mutex {input : List Char} {i : Nat} {c : Char} {st st2 : PState}
    (hterm : st.escaped = false → st.terminal = []) (hm : BufMutex st)
    (h : afterTerminal input i c st = Except.ok st2) : BufMutex st2 := by
  unfold afterTerminal at h
  split at h
  · rename_i hesc
    refine dispatch_ok_mutex ?_ (escapePhase_mutex hm) h
    intro hfalse
    rw [escapePhase_escaped, hesc] at hfalse
    exact absurd hfalse (by simp)
  · split at h
    · simp only [Except.ok.injEq] at h
      subst h
      simpa [BufMutex] using hm
    · exact dispatch_ok_mutex hterm hm h

theorem step_ok_mutex {input : List Char} {i : Nat} {c : Char} {st st2 : PState}
    (hm : BufMutex st) (h : step input i c st = Except.ok st2) : BufMutex st2 := by
  unfold step at h
  split at h
  · rename_i hterm
    exact afterTerminal_ok_mutex (fun _ => hterm) hm h
  · rename_i hterm
    split at h
    · simp at h
    · rename_i hquot
      rw [not_not] at hquot
      split at h
      · exact afterTerminal_ok_mutex (fun _ => rfl) (Or.inr rfl) h
      · split at h
        · simp only [Except.ok.injEq] at h
          subst h
          exact Or.inl hquot
        · simp only [Except.ok.injEq] at h
          subst h
          exact Or.inl hquot

theorem runFrom_no_assert {input : List Char} :
    ∀ {l : List Char} {i : Nat} {st : PState}, BufMutex st →
      runFrom input i l st ≠ Except.error ParseError.assertionFail := by
  intro l
  induction l with
  | nil => intro i st _ h; simp [runFrom] at h
  | cons c rest ih =>
    intro i st hm h
    unfold runFrom at h
    split at h
    · rename_i e2 hstep
      simp only [Except.error.injEq] at h
      subst h
      have := step_assert_needs_both hstep
      rcases hm with hq | ht
      · exact this.2 hq
      · exact this.1 ht
    · rename_i st3 hstep
      exact ih (step_ok_mutex hm hstep) h

/-! ### Shape of the output of a backslash-free run -/

theorem emitTop_stackWF {stack : List (List Sexp)} {x : Sexp}
    (hsw : ∀ acc ∈ stack, ∀ n ∈ acc, WF n) (hx : WF x) :
    ∀ acc ∈ emitTop stack x, ∀ n ∈ acc, WF n := by
  rcases stack with _ | ⟨top, rest⟩
  · intro acc hacc
    simp [emitTop] at hacc
  · intro acc hacc n hn
    simp only [emitTop, List.mem_cons] at hacc
    rcases hacc with rfl | hacc
    · rcases List.mem_append.1 hn with hn2 | hn2
      · exact hsw top (List.mem_cons_self _ _) n hn2
      · simp only [List.mem_singleton] at hn2
        subst hn2
        exact hx
    · exact hsw acc (List.mem_cons_of_mem _ hacc) n hn

theorem emitTop_ne {stack : List (List Sexp)} {x : Sexp} (h : stack ≠ []) :
    emitTop stack x ≠ [] := by
  rcases stack with _ | ⟨top, rest⟩
  · exact absurd rfl h
  · simp [emitTop]

theorem dispatch_invNB {input : List Char} {i : Nat} {c : Char} {st st2 : PState}
    (hc : c ≠ '\\') (hesc : st.escaped = false) (hterm : st.terminal = [])
    (hquot : st.quoted = [] ∨
      ∃ inner, st.quoted = '"' :: inner ∧ ∀ d ∈ inner, innerChar d = true)
    (hsw : ∀ acc ∈ st.stack, ∀ n ∈ acc, WF n) (hne : st.stack ≠ [])
    (h : dispatch input i c st = Except.ok st2) : InvNB st2 := by
  rcases hquot with hq | ⟨inner, hq, hall⟩
  · unfold dispatch at h
    rw [if_neg (by simp [hq]), if_pos hesc] at h
    by_cases hsp : isSpace c = true
    · rw [if_pos hsp] at h
      cases h
      exact ⟨hesc, by simp [hterm], Or.inl hq, Or.inl hq, hsw, hne⟩
    · rw [if_neg hsp] at h
      by_cases hl : c = '('
      · rw [if_pos hl] at h
        cases h
        refine ⟨hesc, by simp [hterm], Or.inl hq, Or.inl hq, ?_, by simp⟩
        intro acc hacc n hn
        rcases List.mem_cons.1 hacc with rfl | hacc
        · simp at hn
        · exact hsw acc hacc n hn
      · rw [if_neg hl] at h
        by_cases hr : c = ')'
        · rw [if_pos hr] at h
          rcases hstk : st.stack with _ | ⟨s0, rest⟩
          · exact absurd hstk hne
          · rcases rest with _ | ⟨r0, rs⟩
            · rw [hstk] at h
              simp at h
            · rw [hstk] at h
              simp only at h
              cases h
              refine ⟨hesc, by simp [hterm], Or.inl hq, Or.inl hq, ?_, ?_⟩
              · show ∀ acc ∈ emitTop (r0 :: rs) (Sexp.list s0), ∀ n ∈ acc, WF n
                refine emitTop_stackWF ?_
                  (WF.list (hsw s0 (by rw [hstk]; exact List.mem_cons_self _ _)))
                intro acc hacc
                exact hsw acc (by rw [hstk]; exact List.mem_cons_of_mem _ hacc)
              · show emitTop (r0 :: rs) (Sexp.list s0) ≠ []
                exact emitTop_ne (by simp)
        · rw [if_neg hr] at h
          by_cases hdq : c = '"'
          · rw [if_pos hdq] at h
            cases h
            exact ⟨hesc, by simp [hterm], Or.inr ⟨[], rfl, by simp⟩, Or.inr hterm,
              hsw, hne⟩
          · rw [if_neg hdq] at h
            cases h
            refine ⟨rfl, ?_, Or.inl hq, Or.inl hq, hsw, hne⟩
            intro d hd
            rw [hterm] at hd
            simp only [List.nil_append, List.mem_singleton] at hd
            subst hd
            simp [bareChar, hl, hr, hdq, hc, hsp]
  · unfold dispatch at h
    rw [if_pos (by simp [hq])] at h
    by_cases hdq : c = '"'
    · rw [if_pos ⟨hesc, hdq⟩] at h
      cases h
      refine ⟨hesc, by simp [hterm], Or.inl rfl, Or.inl rfl, ?_, emitTop_ne hne⟩
      refine emitTop_stackWF hsw ?_
      rw [hq]
      exact WF.quot hall
    · rw [if_neg (fun hco => hdq hco.2)] at h
      cases h
      refine ⟨rfl, by simp [hterm], ?_, Or.inr hterm, hsw, hne⟩
      refine Or.inr ⟨inner ++ [c], by simp [hq], ?_⟩
      intro d hd
      rcases List.mem_append.1 hd with hd2 | hd2
      · exact hall d hd2
      · simp only [List.mem_singleton] at hd2
        subst hd2
        simp [innerChar, hdq, hc]

theorem afterTerminal_invNB {input : List Char} {i : Nat} {c : Char} {st st2 : PState}
    (hc : c ≠ '\\') (hesc : st.escaped = false) (hterm : st.terminal = [])
    (hquot : st.quoted = [] ∨
      ∃ inner, st.quoted = '"' :: inner ∧ ∀ d ∈ inner, innerChar d = true)
    (hsw : ∀ acc ∈ st.stack, ∀ n ∈ acc, WF n) (hne : st.stack ≠ [])
    (h : afterTerminal input i c st = Except.ok st2) : InvNB st2 := by
  unfold afterTerminal at h
  rw [if_neg (by simp [hesc]), if_neg hc] at h
  exact dispatch_invNB hc hesc hterm hquot hsw hne h

theorem step_invNB {input : List Char} {i : Nat} {c : Char} {st st2 : PState}
    (hc : c ≠ '\\') (hinv : InvNB st) (h : step input i c st = Except.ok st2) :
    InvNB st2 := by
  obtain ⟨hesc, hterm, hquot, hmutex, hsw, hne⟩ := hinv
  by_cases ht : st.terminal = []
  · unfold step at h
    rw [if_pos ht] at h
    exact afterTerminal_invNB hc hesc ht hquot hsw hne h
  · have hq : st.quoted = [] := by
      rcases hmutex with h1 | h1
      · exact h1
      · exact absurd h1 ht
    unfold step at h
    rw [if_neg ht, if_neg (by simp [hq])] at h
    by_cases hdelim : c = '(' ∨ c = ')' ∨ c = '"' ∨ isSpace c = true
    · rw [if_pos ⟨hesc, hdelim⟩] at h
      exact @afterTerminal_invNB input i c
        { st with stack := emitTop st.stack (Sexp.atom st.terminal), terminal := [] }
        st2 hc hesc rfl (Or.inl hq)
        (emitTop_stackWF hsw (WF.bare ht hterm)) (emitTop_ne hne) h
    · rw [if_neg (fun hco => hdelim hco.2), if_neg (by simp [hesc])] at h
      cases h
      push_neg at hdelim
      obtain ⟨h1, h2, h3, h4⟩ := hdelim
      refine ⟨rfl, ?_, Or.inl hq, Or.inl hq, hsw, hne⟩
      intro d hd
      rcases List.mem_append.1 hd with hd2 | hd2
      · exact hterm d hd2
      · simp only [List.mem_singleton] at hd2
        subst hd2
        simp [bareChar, h1, h2, h3, hc, h4]

theorem initState_invNB : InvNB initState := by
  refine ⟨rfl, by simp [initState], Or.inl rfl, Or.inl rfl, ?_, by simp [initState]⟩
  intro acc hacc
  simp only [initState, List.mem_singleton] at hacc
  subst hacc
  simp

theorem runFrom_invNB {input : List Char} :
    ∀ {l : List Char} {i : Nat} {st st2 : PState},
      (∀ c ∈ l, c ≠ '\\') → InvNB st → runFrom input i l st = Except.ok st2 →
      InvNB st2 := by
  intro l
  induction l with
  | nil =>
    intro i st st2 _ hinv h
    exact Except.ok.inj h ▸ hinv
  | cons c rest ih =>
    intro i st st2 hl hinv h
    unfold runFrom at h
    split at h
    · simp at h
    · rename_i st3 hstep
      exact ih (fun d hd => hl d (List.mem_cons_of_mem _ hd))
        (step_invNB (hl c (List.mem_cons_self _ _)) hinv hstep) h

theorem parse_WF {s : List Char} {res : List Sexp} (hs : '\\' ∉ s)
    (h : sexp_parse s = Except.ok res) : (∀ n ∈ res, WF n) ∧ res ≠ [] := by
  unfold sexp_parse at h
  split at h
  · simp at h
  · rename_i st hrun
    have hinv : InvNB st :=
      runFrom_invNB (fun c hc hceq => hs (hceq ▸ hc)) initState_invNB hrun
    unfold finish at h
    split at h
    · rename_i top heq
      split at h
      · simp at h
      · rename_i hempty
        have hres : res = top := (Except.ok.inj h).symm
        subst hres
        have htopne : res ≠ [] := by
          intro hh
          subst hh
          simp at hempty
        by_cases ht : st.terminal = []
        · rw [if_pos ht] at heq
          exact ⟨hinv.stackWF res (by rw [heq]; exact List.mem_cons_self _ _), htopne⟩
        · rw [if_neg ht] at heq
          rcases hstk : st.stack with _ | ⟨top0, rest⟩
          · exact absurd hstk hinv.ne
          · rw [hstk] at heq
            simp only [emitTop, List.cons.injEq] at heq
            obtain ⟨htop, hrest⟩ := heq
            refine ⟨?_, htopne⟩
            intro n hn
            rw [← htop] at hn
            rcases List.mem_append.1 hn with hn2 | hn2
            · exact hinv.stackWF top0 (by rw [hstk]; exact List.mem_cons_self _ _) n hn2
            · simp only [List.mem_singleton] at hn2
              subst hn2
              exact WF.bare ht hinv.term
    · simp at h

theorem bareChar_spec {c : Char} (h : bareChar c = true) :
    c ≠ '(' ∧ c ≠ ')' ∧ c ≠ '"' ∧ c ≠ '\\' ∧ isSpace c = false := by
  unfold bareChar at h
  refine ⟨?_, ?_, ?_, ?_, ?_⟩
  · intro hc; subst hc; simp at h
  · intro hc; subst hc; simp at h
  · intro hc; subst hc; simp at h
  · intro hc; subst hc; simp at h
  · cases hsp : isSpace c
    · rfl
    · rw [hsp] at h; simp at h

theorem innerChar_spec {c : Char} (h : innerChar c = true) :
    c ≠ '"' ∧ c ≠ '\\' := by
  unfold innerChar at h
  constructor
  · intro hc; subst hc; simp at h
  · intro hc; subst hc; simp at h

theorem WF_atomText {n : Sexp} {t : List Char} (hw : WF n) (hin : AtomTextIn t n) :
    (t ≠ [] ∧ ∀ c ∈ t, bareChar c = true) ∨
    ∃ inner, t = '"' :: (inner ++ ['"']) ∧ ∀ c ∈ inner, innerChar c = true := by
  revert hw
  induction hin with
  | here =>
    intro hw
    cases hw with
    | bare hne hall => exact Or.inl ⟨hne, hall⟩
    | quot hall => exact Or.inr ⟨_, rfl, hall⟩
  | there hmem hsub ih =>
    intro hw
    cases hw with
    | list hws => exact ih (hws _ hmem)

/-! ### Parsing a serialized well-formed forest -/

theorem flushPend_ne {p : List Char} (h : p ≠ []) : flushPend p = [Sexp.atom p] := by
  rcases p with _ | ⟨c, cs⟩
  · exact absurd rfl h
  · rfl

theorem runFrom_append {input : List Char} :
    ∀ (xs ys : List Char) (i : Nat) (st : PState),
      runFrom input i (xs ++ ys) st =
        contRun input (i + xs.length) ys (runFrom input i xs st) := by
  intro xs
  induction xs with
  | nil =>
    intro ys i st
    simp [runFrom, contRun]
  | cons c rest ih =>
    intro ys i st
    simp only [List.cons_append, runFrom]
    cases hstep : step input i c st with
    | error e => simp [contRun]
    | ok st2 =>
      show runFrom input (i + 1) (rest ++ ys) st2 =
        contRun input (i + (c :: rest).length) ys (runFrom input (i + 1) rest st2)
      rw [ih]
      have harith : i + 1 + rest.length = i + (c :: rest).length := by
        simp only [List.length_cons]
        omega
      rw [harith]

theorem run_bare {input : List Char} :
    ∀ (t : List Char), (∀ c ∈ t, bareChar c = true) →
      ∀ (i : Nat) (stk : List (List Sexp)) (pre : List Char),
        runFrom input i t ⟨stk, [], false, pre⟩ = .ok ⟨stk, [], false, pre ++ t⟩ := by
  intro t
  induction t with
  | nil => intro _ i stk pre; simp [runFrom]
  | cons c rest ih =>
    intro hall i stk pre
    obtain ⟨h1, h2, h3, h4, h5⟩ := bareChar_spec (hall c (List.mem_cons_self _ _))
    have hstep : step input i c ⟨stk, [], false, pre⟩ = .ok ⟨stk, [], false, pre ++ [c]⟩ := by
      rcases pre with _ | ⟨p, ps⟩
      · simp [step, afterTerminal, dispatch, h1, h2, h3, h4, h5]
      · simp [step, h1, h2, h3, h4, h5]
    simp only [runFrom, hstep]
    rw [ih (fun d hd => hall d (List.mem_cons_of_mem _ hd))]
    simp

theorem run_inner {input : List Char} :
    ∀ (t : List Char), (∀ c ∈ t, innerChar c = true) →
      ∀ (i : Nat) (stk : List (List Sexp)) (q0 : Char) (qs : List Char),
        runFrom input i t ⟨stk, q0 :: qs, false, []⟩ =
          .ok ⟨stk, (q0 :: qs) ++ t, false, []⟩ := by
  intro t
  induction t with
  | nil => intro _ i stk q0 qs; simp [runFrom]
  | cons c rest ih =>
    intro hall i stk q0 qs
    obtain ⟨h1, h2⟩ := innerChar_spec (hall c (List.mem_cons_self _ _))
    have hstep : step input i c ⟨stk, q0 :: qs, false, []⟩ =
        .ok ⟨stk, q0 :: (qs ++ [c]), false, []⟩ := by
      simp [step, afterTerminal, dispatch, h1, h2]
    simp only [runFrom, hstep]
    rw [ih (fun d hd => hall d (List.mem_cons_of_mem _ hd))]
    simp

theorem step_space {input : List Char} (i : Nat) (top : List Sexp)
    (rest : List (List Sexp)) (pend : List Char) :
    step input i ' ' ⟨top :: rest, [], false, pend⟩ =
      .ok ⟨(top ++ flushPend pend) :: rest, [], false, []⟩ := by
  rcases pend with _ | ⟨p, ps⟩
  · simp [step, afterTerminal, dispatch, flushPend,
      (by decide : ¬((' ' : Char) = '\\')), (by decide : isSpace ' ' = true)]
  · simp [step, afterTerminal, dispatch, emitTop, flushPend,
      (by decide : ¬((' ' : Char) = '\\')), (by decide : isSpace ' ' = true)]

theorem step_lpar {input : List Char} (i : Nat) (stk : List (List Sexp)) :
    step input i '(' ⟨stk, [], false, []⟩ = .ok ⟨[] :: stk, [], false, []⟩ := by
  simp [step, afterTerminal, dispatch,
    (by decide : ¬(('(' : Char) = '\\')), (by decide : isSpace '(' = false)]

theorem step_rpar {input : List Char} (i : Nat) (acc top : List Sexp)
    (rest : List (List Sexp)) (pend : List Char) :
    step input i ')' ⟨acc :: top :: rest, [], false, pend⟩ =
      .ok ⟨(top ++ [Sexp.list (acc ++ flushPend pend)]) :: rest, [], false, []⟩ := by
  rcases pend with _ | ⟨p, ps⟩
  · simp [step, afterTerminal, dispatch, emitTop, flushPend,
      (by decide : ¬((')' : Char) = '\\')), (by decide : isSpace ')' = false),
      (by decide : ¬((')' : Char) = '(')), (by decide : ¬((')' : Char) = '"'))]
  · simp [step, afterTerminal, dispatch, emitTop, flushPend,
      (by decide : ¬((')' : Char) = '\\')), (by decide : isSpace ')' = false),
      (by decide : ¬((')' : Char) = '(')), (by decide : ¬((')' : Char) = '"'))]

theorem step_openquote {input : List Char} (i : Nat) (stk : List (List Sexp)) :
    step input i '"' ⟨stk, [], false, []⟩ = .ok ⟨stk, ['"'], false, []⟩ := by
  simp [step, afterTerminal, dispatch,
    (by decide : ¬(('"' : Char) = '\\')), (by decide : isSpace '"' = false),
    (by decide : ¬(('"' : Char) = '(')), (by decide : ¬(('"' : Char) = ')'))]

theorem step_closequote {input : List Char} (i : Nat) (stk : List (List Sexp))
    (q0 : Char) (qs : List Char) :
    step input i '"' ⟨stk, q0 :: qs, false, []⟩ =
      .ok ⟨emitTop stk (Sexp.atom ((q0 :: qs) ++ ['"'])), [], false, []⟩ := by
  simp [step, afterTerminal, dispatch]

theorem node_flush {n : Sexp} (hw : WF n) :
    nodeEmitted n ++ flushPend (nodePending n) = [n] := by
  cases hw with
  | bare hne hall =>
    rename_i t
    have hall2 : t.all bareChar = true := List.all_eq_true.2 hall
    simp [nodeEmitted, nodePending, hall2, flushPend_ne hne]
  | quot hall =>
    rename_i inner
    have hfalse : ('"' :: (inner ++ ['"'])).all bareChar = false := by
      simp [List.all_cons, (by decide : bareChar '"' = false)]
    simp [nodeEmitted, nodePending, hfalse, flushPend]
  | list h =>
    simp [nodeEmitted, nodePending, flushPend]

theorem forest_flush {F : List Sexp} (hw : ∀ n ∈ F, WF n) :
    forestEmitted F ++ flushPend (forestPending F) = F := by
  induction F with
  | nil => rfl
  | cons n ns ih =>
    rcases ns with _ | ⟨m, ms⟩
    · simpa [forestEmitted, forestPending] using
        node_flush (hw n (List.mem_cons_self _ _))
    · simp only [forestEmitted, forestPending, List.cons_append]
      rw [ih (fun d hd => hw d (List.mem_cons_of_mem _ hd))]

mutual

theorem run_node {input : List Char} (n : Sexp) (hw : WF n) :
    ∀ (i : Nat) (top : List Sexp) (rest : List (List Sexp)),
      runFrom input i (serialize n) ⟨top :: rest, [], false, []⟩ =
        Except.ok ⟨(top ++ nodeEmitted n) :: rest, [], false, nodePending n⟩ := by
  intro i top rest
  cases hw with
  | bare hne hall =>
    rename_i t
    have hall2 : t.all bareChar = true := List.all_eq_true.2 hall
    simp only [serialize, nodeEmitted, nodePending, hall2, if_true]
    rw [run_bare t hall i (top :: rest) []]
    simp
  | quot hall =>
    rename_i inner
    have hfalse : ('"' :: (inner ++ ['"'])).all bareChar = false := by
      simp [List.all_cons, (by decide : bareChar '"' = false)]
    simp only [serialize, nodeEmitted, nodePending, hfalse]
    simp only [runFrom, step_openquote]
    rw [runFrom_append]
    rw [run_inner inner hall]
    simp only [List.cons_append, List.nil_append, contRun]
    simp only [runFrom, step_closequote]
    simp [emitTop]
  | list hws =>
    rename_i children
    simp only [serialize, nodeEmitted, nodePending]
    simp only [runFrom, step_lpar]
    rw [runFrom_append]
    rcases children with _ | ⟨m, ms⟩
    · simp only [serializeForest, runFrom, contRun]
      simp only [runFrom, step_rpar]
      simp [flushPend]
    · rw [run_forest (m :: ms) hws (by simp)]
      simp only [contRun, List.nil_append]
      simp only [runFrom, step_rpar]
      rw [forest_flush hws]

theorem run_forest {input : List Char} (F : List Sexp) (hws : ∀ n ∈ F, WF n)
    (hne : F ≠ []) :
    ∀ (i : Nat) (top : List Sexp) (rest : List (List Sexp)),
      runFrom input i (serializeForest F) ⟨top :: rest, [], false, []⟩ =
        Except.ok ⟨(top ++ forestEmitted F) :: rest, [], false, forestPending F⟩ := by
  intro i top rest
  rcases F with _ | ⟨n, ns⟩
  · exact absurd rfl hne
  · rcases ns with _ | ⟨m, ms⟩
    · simp only [serializeForest, forestEmitted, forestPending]
      exact run_node n (hws n (List.mem_cons_self _ _)) i top rest
    · simp only [serializeForest, forestEmitted, forestPending]
      rw [runFrom_append]
      rw [run_node n (hws n (List.mem_cons_self _ _))]
      simp only [contRun]
      simp only [runFrom, step_space]
      have hnf : (top ++ nodeEmitted n) ++ flushPend (nodePending n) = top ++ [n] := by
        rw [List.append_assoc, node_flush (hws n (List.mem_cons_self _ _))]
      rw [hnf]
      rw [run_forest (m :: ms) (fun d hd => hws d (List.mem_cons_of_mem _ hd)) (by simp)]
      simp

end

theorem finish_clean {input : List Char} {top : List Sexp} (h : top ≠ []) :
    finish input ⟨[top], [], false, []⟩ = Except.ok top := by
  have h2 : top.isEmpty = false := by
    rcases top with _ | _
    · exact absurd rfl h
    · rfl
  show (if top.isEmpty = true then Except.error (ParseError.malformed input)
        else Except.ok top) = Except.ok top
  rw [h2]
  simp

theorem finish_pend {input : List Char} {top : List Sexp} {p : Char} {ps : List Char} :
    finish input ⟨[top], [], false, p :: ps⟩ =
      Except.ok (top ++ [Sexp.atom (p :: ps)]) := by
  have h2 : (top ++ [Sexp.atom (p :: ps)]).isEmpty = false := by
    rcases top with _ | _ <;> rfl
  show (if (top ++ [Sexp.atom (p :: ps)]).isEmpty = true
        then Except.error (ParseError.malformed input)
        else Except.ok (top ++ [Sexp.atom (p :: ps)])) =
      Except.ok (top ++ [Sexp.atom (p :: ps)])
  rw [h2]
  simp

theorem serialize_parse {F : List Sexp} (hws : ∀ n ∈ F, WF n) (hne : F ≠ []) :
    sexp_parse (serializeForest F) = Except.ok F := by
  unfold sexp_parse
  have hrun := @run_forest (serializeForest F) F hws hne 0 [] []
  have hinit : (initState : PState) = ⟨[] :: [], [], false, []⟩ := rfl
  rw [hinit, hrun]
  show finish (serializeForest F)
      ⟨([] ++ forestEmitted F) :: [], [], false, forestPending F⟩ = Except.ok F
  have hnil : (([] : List Sexp) ++ forestEmitted F) = forestEmitted F := rfl
  rw [hnil]
  have hf := forest_flush hws
  rcases hp : forestPending F with _ | ⟨p, ps⟩
  · rw [hp] at hf
    simp only [flushPend, List.append_nil] at hf
    rw [hf]
    exact finish_clean hne
  · rw [hp] at hf
    rw [show flushPend (p :: ps) = [Sexp.atom (p :: ps)] from rfl] at hf
    rw [finish_pend, hf]

/-- C1: the claim says a backslash read with the escaped flag clear always
sets the flag, even when the bare-atom buffer is non-empty, so that
`tok\nend` yields an atom containing a newline.  The code instead appends a
backslash read with a non-empty terminal buffer literally to that buffer and
never sets the flag there, so `tok\nend` yields the atom `tok\nend` with a
literal backslash and letter n and no newline code point. -/
theorem C1_backslash_mid_atom_literal :
    sexp_parse (chars "tok\\nend") = Except.ok [Sexp.atom (chars "tok\\nend")] ∧
    step (chars "tok\\nend") 3 '\\' ⟨[[]], [], false, chars "tok"⟩ =
      Except.ok ⟨[[]], [], false, chars "tok" ++ ['\\']⟩ ∧
    Char.ofNat 10 ∉ chars "tok\\nend" :=
  ⟨rfl, rfl, by decide⟩

/-- C2 counterexample: the input `a "b` opens a quoted literal that is never
terminated, yet parsing succeeds (returning just the atom `a`), contradicting
the claim that every such input fails with a malformed-sexp error. -/
theorem C2_counterexample :
    sexp_parse (chars "a \"b") = Except.ok [Sexp.atom (chars "a")] := rfl

/-- C2 amended: the open quoted-literal buffer is never flushed as an atom —
the end-of-input handling ignores it entirely — and a malformed-sexp error
occurs only when the stack depth or top-level emptiness check fails anyway:
`"ab` alone is malformed, but `a "b` succeeds, silently discarding the
unterminated literal. -/
theorem C2_amended_unterminated :
    (∀ (input : List Char) (st : PState) (q : List Char),
        finish input { st with quoted := q } = finish input st) ∧
    sexp_parse (chars "a \"b") = Except.ok [Sexp.atom (chars "a")] ∧
    sexp_parse (chars "\"ab") = Except.error (ParseError.malformed (chars "\"ab")) :=
  ⟨fun _ _ _ => rfl, rfl, rfl⟩

/-- C3 counterexample: the example input `"a\"b"` of the claim has 6 code
points, not 7 as the claim states (it parses to a single atom storing those
same 6 code points). -/
theorem C3_counterexample :
    (chars "\"a\\\"b\"").length = 6 ∧
    sexp_parse (chars "\"a\\\"b\"") = Except.ok [Sexp.atom (chars "\"a\\\"b\"")] :=
  ⟨rfl, rfl⟩

/-- C3 amended: an escaped double quote inside an open quoted literal is
stored as the two code points backslash-quote; an unescaped double quote
closes the literal and the emitted atom is the buffer plus the closing
quote, so it begins and ends with the delimiting quotes; the 6-code-point
input `"a\"b"` parses to a single atom storing those same 6 code points. -/
theorem C3_amended_quoted_text :
    (∀ (input : List Char) (i : Nat) (st : PState),
        st.terminal = [] → st.escaped = true → st.quoted ≠ [] →
        step input i '"' st =
          Except.ok { st with quoted := st.quoted ++ ['\\', '"'], escaped := false }) ∧
    (∀ (input : List Char) (i : Nat) (st : PState),
        st.terminal = [] → st.escaped = false → st.quoted.head? = some '"' →
        step input i '"' st =
          Except.ok { st with stack := emitTop st.stack (Sexp.atom (st.quoted ++ ['"'])),
                              quoted := [] } ∧
        (st.quoted ++ ['"']).head? = some '"' ∧
        (st.quoted ++ ['"']).getLast? = some '"') ∧
    (chars "\"a\\\"b\"").length = 6 ∧
    sexp_parse (chars "\"a\\\"b\"") = Except.ok [Sexp.atom (chars "\"a\\\"b\"")] := by
  refine ⟨?_, ?_, rfl, rfl⟩
  · intro input i st ht hesc hq
    obtain ⟨stk, q, esc, term⟩ := st
    simp only at ht hesc hq
    subst ht hesc
    simp [step, afterTerminal, escapePhase, escResolve, dispatch, hq]
  · intro input i st ht hesc hq
    obtain ⟨stk, q, esc, term⟩ := st
    simp only at ht hesc hq
    subst ht hesc
    rcases q with _ | ⟨c0, qs⟩
    · simp at hq
    · simp only [List.head?_cons, Option.some.injEq] at hq
      subst hq
      refine ⟨?_, rfl, ?_⟩
      · simp [step, afterTerminal, dispatch]
      · show (('"' :: qs) ++ ['"']).getLast? = some '"'
        rw [List.getLast?_append_cons]
        rfl

/-- C3 witness: both branches applied at concrete one-quote states. -/
theorem C3_witness :
    step [] 0 '"' (⟨[[]], ['"'], true, []⟩ : PState) =
      Except.ok { (⟨[[]], ['"'], true, []⟩ : PState) with
                    quoted := ['"'] ++ ['\\', '"'], escaped := false } ∧
    (step [] 0 '"' (⟨[[]], ['"'], false, []⟩ : PState) =
      Except.ok { (⟨[[]], ['"'], false, []⟩ : PState) with
                    stack := emitTop [[]] (Sexp.atom (['"'] ++ ['"'])), quoted := [] } ∧
     ((['"'] : List Char) ++ ['"']).head? = some '"' ∧
     ((['"'] : List Char) ++ ['"']).getLast? = some '"') :=
  ⟨C3_amended_quoted_text.1 [] 0 ⟨[[]], ['"'], true, []⟩ rfl rfl (by decide),
   C3_amended_quoted_text.2.1 [] 0 ⟨[[]], ['"'], false, []⟩ rfl rfl rfl⟩

/-- C4: a close parenthesis read with no quoted literal open, the escape
flag clear, and only the top-level accumulator on the stack fails at once
with the unmatched-close-paren error carrying the 0-based index and the full
input; `(a)) ` fails at index 3 and the message embeds both. -/
theorem C4_unmatched_close_paren :
    (∀ (input : List Char) (i : Nat) (st : PState) (acc : List Sexp),
        st.quoted = [] → st.escaped = false → st.stack = [acc] →
        step input i ')' st = Except.error (ParseError.extraClose i input)) ∧
    sexp_parse (chars "(a)) ") = Except.error (.extraClose 3 (chars "(a)) ")) ∧
    errorMessage (.extraClose 3 (chars "(a)) ")) =
      chars "Extra close parenthesis at index 3 of (a)) " := by
  refine ⟨?_, rfl, by decide⟩
  intro input i st acc hq hesc hstack
  obtain ⟨stk, q, esc, term⟩ := st
  simp only at hq hesc hstack
  subst hq hesc hstack
  rcases term with _ | ⟨t, ts⟩
  · simp [step, afterTerminal, dispatch,
      (by decide : ¬((')' : Char) = '\\')),
      (by decide : isSpace ')' = false),
      (by decide : ¬((')' : Char) = '('))]
  · simp [step, afterTerminal, dispatch, emitTop,
      (by decide : ¬((')' : Char) = '\\')),
      (by decide : isSpace ')' = false),
      (by decide : ¬((')' : Char) = '(')),
      (by decide : ¬((')' : Char) = '"'))]

/-- C4 witness: the general branch applied at the initial state, where a
close parenthesis at index 0 fails with the error carrying 0 and the (empty)
input. -/
theorem C4_witness :
    step [] 0 ')' initState = Except.error (ParseError.extraClose 0 []) :=
  C4_unmatched_close_paren.1 [] 0 initState [] rfl rfl rfl

/-- C5: every malformed-sexp failure of the parser carries the original
input, and its message is exactly `Malformed sexp: ` followed by the whole
input, or by its first 72 code points (with no ellipsis marker) when the
input is longer than 100 code points. -/
theorem C5_malformed_message :
    ∀ (s m : List Char), sexp_parse s = Except.error (ParseError.malformed m) →
      m = s ∧ errorMessage (ParseError.malformed m) =
        chars "Malformed sexp: " ++ (if 100 < s.length then s.take 72 else s) := by
  intro s m h
  unfold sexp_parse at h
  split at h
  · rename_i e hrun
    simp only [Except.error.injEq] at h
    subst h
    rcases runFrom_error_cases hrun with h1 | ⟨j, h1⟩ <;> simp at h1
  · have hms : ParseError.malformed m = ParseError.malformed s := finish_error_eq h
    have hm : m = s := by injection hms
    subst hm
    exact ⟨rfl, rfl⟩

/-- C5 witness: instances at the 1-code-point malformed input `(` (shown in
full) and at a 101-code-point malformed input (message truncated to the
first 72 code points). -/
theorem C5_malformed_message_witness :
    (chars "(" = chars "(" ∧ errorMessage (ParseError.malformed (chars "(")) =
      chars "Malformed sexp: " ++
        (if 100 < (chars "(").length then (chars "(").take 72 else chars "(")) ∧
    ('(' :: List.replicate 100 'a' = '(' :: List.replicate 100 'a' ∧
      errorMessage (ParseError.malformed ('(' :: List.replicate 100 'a')) =
        chars "Malformed sexp: " ++
          (if 100 < ('(' :: List.replicate 100 'a').length
           then ('(' :: List.replicate 100 'a').take 72
           else '(' :: List.replicate 100 'a')) :=
  ⟨C5_malformed_message (chars "(") (chars "(") rfl,
   C5_malformed_message ('(' :: List.replicate 100 'a') ('(' :: List.replicate 100 'a') rfl⟩

/-- C7: every loop step preserves the mutual exclusion of the quoted-literal
buffer and the bare-atom buffer, so the internal-invariant (assertion) error
branch is unreachable: no input makes the parser fail with it. -/
theorem C7_assert_unreachable :
    (∀ (input : List Char) (i : Nat) (c : Char) (st st2 : PState),
        BufMutex st → step input i c st = Except.ok st2 → BufMutex st2) ∧
    ∀ s : List Char, sexp_parse s ≠ Except.error ParseError.assertionFail := by
  refine ⟨fun input i c st st2 hm h => step_ok_mutex hm h, ?_⟩
  intro s h
  unfold sexp_parse at h
  split at h
  · rename_i e hrun
    simp only [Except.error.injEq] at h
    subst h
    exact runFrom_no_assert (Or.inl rfl) hrun
  · have := finish_error_eq h
    simp at this

/-- C7 witness: the preservation branch applied at the initial state and one
step on `x`, plus the unreachability instantiated at a concrete input. -/
theorem C7_witness :
    BufMutex (⟨[[]], [], false, ['x']⟩ : PState) ∧
    sexp_parse (chars "x") ≠ Except.error ParseError.assertionFail :=
  ⟨C7_assert_unreachable.1 [] 0 'x' initState ⟨[[]], [], false, ['x']⟩ (Or.inl rfl) rfl,
   C7_assert_unreachable.2 (chars "x")⟩

/-- C8: the input `(a b (c d) e)` parses successfully; its single top-level
element is a list with exactly 4 children in order: atom `a`, atom `b`, the
list of atoms `c` and `d`, and atom `e`. -/
theorem C8_example_tree :
    sexp_parse (chars "(a b (c d) e)") =
      Except.ok [Sexp.list [Sexp.atom (chars "a"), Sexp.atom (chars "b"),
                            Sexp.list [Sexp.atom (chars "c"), Sexp.atom (chars "d")],
                            Sexp.atom (chars "e")]] := rfl

/-- C10 counterexample: the 2-code-point input `a\` does not yield the atom
`a` with the backslash discarded; the backslash is appended to the pending
atom, yielding the atom `a\`. -/
theorem C10_counterexample :
    sexp_parse (chars "a\\") = Except.ok [Sexp.atom (chars "a\\")] := rfl

/-- C10 amended: a trailing backslash is silently discarded only when it is
read with the bare-atom buffer empty (only then is the escaped flag set): the
flag is consumed with nothing appended, and the end-of-input handling ignores
it, so `a \` yields just the atom `a`; with a non-empty buffer the backslash
is instead appended literally, so `a\` yields the atom `a\`. -/
theorem C10_amended_trailing_backslash :
    (∀ (input : List Char) (i : Nat) (st : PState),
        st.terminal = [] → st.escaped = false →
        step input i '\\' st = Except.ok { st with escaped := true }) ∧
    (∀ (input : List Char) (st : PState) (b : Bool),
        finish input { st with escaped := b } = finish input st) ∧
    sexp_parse (chars "a \\") = Except.ok [Sexp.atom (chars "a")] ∧
    sexp_parse (chars "a\\") = Except.ok [Sexp.atom (chars "a\\")] := by
  refine ⟨?_, fun _ _ _ => rfl, rfl, rfl⟩
  intro input i st ht hesc
  obtain ⟨stk, q, esc, term⟩ := st
  simp only at ht hesc
  subst ht hesc
  simp [step, afterTerminal]

/-- C10 witness: the discard branch applied at the initial state, and the
end-of-input indifference to the escaped flag at that state. -/
theorem C10_witness :
    step [] 0 '\\' initState = Except.ok { initState with escaped := true } ∧
    finish [] { initState with escaped := true } = finish [] initState :=
  ⟨C10_amended_trailing_backslash.1 [] 0 initState rfl rfl,
   C10_amended_trailing_backslash.2.1 [] initState true⟩

/-- C6 counterexample: parsing succeeds on the 2-code-point input backslash
then open paren, producing a bare atom (its text starts with a backslash,
not a delimiting quote) that contains the structural delimiter `(`. -/
theorem C6_counterexample :
    sexp_parse (chars "\\(") = Except.ok [Sexp.atom (chars "\\(")] ∧
    '(' ∈ chars "\\(" ∧ (chars "\\(").head? = some '\\' :=
  ⟨rfl, by decide, rfl⟩

/-- C6 amended: for every input containing no backslash (hence no escape
sequences) on which parsing succeeds, every atom text in the resulting tree
either is a quoted literal (it begins with a double quote) or contains no
parenthesis, no double quote, and no whitespace code point. -/
theorem C6_amended_no_delimiters :
    ∀ (s : List Char) (res : List Sexp) (t : List Char) (n : Sexp),
      '\\' ∉ s → sexp_parse s = Except.ok res → n ∈ res → AtomTextIn t n →
      t.head? = some '"' ∨
      ∀ c ∈ t, c ≠ '(' ∧ c ≠ ')' ∧ c ≠ '"' ∧ isSpace c = false := by
  intro s res t n hs h hmem hin
  have hwf := (parse_WF hs h).1 n hmem
  rcases WF_atomText hwf hin with ⟨hne, hall⟩ | ⟨inner, rfl, hall⟩
  · right
    intro c hcmem
    obtain ⟨h1, h2, h3, h4, h5⟩ := bareChar_spec (hall c hcmem)
    exact ⟨h1, h2, h3, h5⟩
  · left
    rfl

/-- C6 witness: the amended statement applied to the parse of `ab`. -/
theorem C6_witness :
    (chars "ab").head? = some '"' ∨
    ∀ c ∈ chars "ab", c ≠ '(' ∧ c ≠ ')' ∧ c ≠ '"' ∧ isSpace c = false :=
  C6_amended_no_delimiters (chars "ab") [Sexp.atom (chars "ab")] (chars "ab")
    (Sexp.atom (chars "ab")) (by decide) rfl (List.mem_cons_self _ _)
    (AtomTextIn.here _)

/-- C9: for every backslash-free input (no escape sequences) on which
parsing succeeds, serializing the resulting forest (atoms joined by single
spaces, each list wrapping its children in parentheses) and parsing again
returns exactly the original forest. -/
theorem C9_roundtrip :
    ∀ (s : List Char) (res : List Sexp), '\\' ∉ s → sexp_parse s = Except.ok res →
      sexp_parse (serializeForest res) = Except.ok res := by
  intro s res hs h
  obtain ⟨hw, hne⟩ := parse_WF hs h
  exact serialize_parse hw hne

/-- C9 witness: the round trip applied to the parse of `(a b)`. -/
theorem C9_witness :
    sexp_parse (serializeForest [Sexp.list [Sexp.atom (chars "a"),
        Sexp.atom (chars "b")]]) =
      Except.ok [Sexp.list [Sexp.atom (chars "a"), Sexp.atom (chars "b")]] :=
  C9_roundtrip (chars "(a b)")
    [Sexp.list [Sexp.atom (chars "a"), Sexp.atom (chars "b")]] (by decide) rfl

end SexpParse
